import Mathlib

/-!
Verification development for the L-system core of `bevy-planty`
(`src/plant.rs`, `src/events.rs`, `src/ui.rs`).

Modelling conventions:
* `f32` scalars are modelled exactly by `F32`: either a finite rational or the
  distinguished `negInf` value (`f32::NEG_INFINITY`, used only for the sentinel
  break point `Vec3::splat(f32::NEG_INFINITY)`).  All cursor arithmetic in the
  interpreter happens on finite values, which the rational fragment models
  exactly; rounding is not modelled.
* The transcendental primitives used by `glam` (`sin`/`cos` inside
  `Quat::from_euler`, and `f32::to_radians`) are supplied as an explicit
  parameter `Trig`; every theorem below is proved for an arbitrary `Trig`.
* Rust `Vec` push/pop at the back of the vector; the branch stack is modelled
  by a Lean list whose head is the stack top.
-/

namespace Planty

/-- Model of an `f32` value: a finite rational, or negative infinity
(the only non-finite value the program manipulates). -/
inductive F32 where
  | fin (q : ℚ)
  | negInf
deriving DecidableEq

/-- Addition; `-∞` absorbs (only finite values are ever added by the code). -/
def F32.add : F32 → F32 → F32
  | .fin a, .fin b => .fin (a + b)
  | _, _ => .negInf

/-- Multiplication on the finite fragment; `-∞` absorbs. -/
def F32.mul : F32 → F32 → F32
  | .fin a, .fin b => .fin (a * b)
  | _, _ => .negInf

/-- Subtraction on the finite fragment; `-∞` absorbs. -/
def F32.sub : F32 → F32 → F32
  | .fin a, .fin b => .fin (a - b)
  | _, _ => .negInf

/-- `glam::Vec3`, componentwise over modelled `f32`. -/
structure Vec3 where
  x : F32
  y : F32
  z : F32
deriving DecidableEq

/-- `Vec3::ZERO`, the `Default` value. -/
def Vec3.zero : Vec3 := ⟨.fin 0, .fin 0, .fin 0⟩

/-- `Vec3::Y`, the fixed forward unit vector used by `Action::Forwards`. -/
def Vec3.yAxis : Vec3 := ⟨.fin 0, .fin 1, .fin 0⟩

/-- `Vec3::splat(v)`. -/
def Vec3.splat (v : F32) : Vec3 := ⟨v, v, v⟩

/-- Componentwise vector addition. -/
def Vec3.add (a b : Vec3) : Vec3 := ⟨a.x.add b.x, a.y.add b.y, a.z.add b.z⟩

/-- `Vec3 * f32` (componentwise scale), as in `(rot * Vec3::Y) * segment_length`. -/
def Vec3.smul (a : Vec3) (s : F32) : Vec3 := ⟨a.x.mul s, a.y.mul s, a.z.mul s⟩

/-- Dot product. -/
def Vec3.dot (a b : Vec3) : F32 :=
  ((a.x.mul b.x).add (a.y.mul b.y)).add (a.z.mul b.z)

/-- Cross product. -/
def Vec3.cross (a b : Vec3) : Vec3 :=
  ⟨(a.y.mul b.z).sub (a.z.mul b.y),
   (a.z.mul b.x).sub (a.x.mul b.z),
   (a.x.mul b.y).sub (a.y.mul b.x)⟩

/-- `glam::Quat` (x, y, z, w). -/
structure Quat where
  x : F32
  y : F32
  z : F32
  w : F32
deriving DecidableEq

/-- `Quat::IDENTITY`, the `Default` value. -/
def Quat.identity : Quat := ⟨.fin 0, .fin 0, .fin 0, .fin 1⟩

/-- Hamilton product `a * b` (glam's `Mul<Quat> for Quat`). -/
def Quat.mulQ (a b : Quat) : Quat :=
  ⟨((((a.w.mul b.x).add (a.x.mul b.w)).add (a.y.mul b.z)).sub (a.z.mul b.y)),
   ((((a.w.mul b.y).sub (a.x.mul b.z)).add (a.y.mul b.w)).add (a.z.mul b.x)),
   ((((a.w.mul b.z).add (a.x.mul b.y)).sub (a.y.mul b.x)).add (a.z.mul b.w)),
   ((((a.w.mul b.w).sub (a.x.mul b.x)).sub (a.y.mul b.y)).sub (a.z.mul b.z))⟩

/-- `q * v` (glam's `Mul<Vec3> for Quat`, rotation of a vector):
`v*(w*w - b.dot b) + b*(2*v.dot b) + (b.cross v)*(2*w)` with `b = (x,y,z)`. -/
def Quat.mulVec3 (q : Quat) (v : Vec3) : Vec3 :=
  let b : Vec3 := ⟨q.x, q.y, q.z⟩
  ((v.smul ((q.w.mul q.w).sub (b.dot b))).add
    (b.smul ((v.dot b).mul (.fin 2)))).add
    ((b.cross v).smul (q.w.mul (.fin 2)))

/-- The transcendental `f32` primitives (`sin`, `cos`, `to_radians`) that the
rational model cannot compute; every theorem holds for an arbitrary choice. -/
structure Trig where
  sinF : F32 → F32
  cosF : F32 → F32
  toRadians : F32 → F32

/-- Rotation quaternion about the X axis by `angle` (half-angle form). -/
def Quat.axisX (T : Trig) (angle : F32) : Quat :=
  ⟨T.sinF (angle.mul (.fin (1/2))), .fin 0, .fin 0, T.cosF (angle.mul (.fin (1/2)))⟩

/-- Rotation quaternion about the Y axis by `angle`. -/
def Quat.axisY (T : Trig) (angle : F32) : Quat :=
  ⟨.fin 0, T.sinF (angle.mul (.fin (1/2))), .fin 0, T.cosF (angle.mul (.fin (1/2)))⟩

/-- Rotation quaternion about the Z axis by `angle`. -/
def Quat.axisZ (T : Trig) (angle : F32) : Quat :=
  ⟨.fin 0, .fin 0, T.sinF (angle.mul (.fin (1/2))), T.cosF (angle.mul (.fin (1/2)))⟩

/-- `Quat::from_euler(EulerRot::XYZ, a, b, c)`: composition of the three axis
rotations (the exact composition order is irrelevant to every claim below). -/
def Quat.fromEulerXYZ (T : Trig) (a b c : F32) : Quat :=
  (Quat.axisX T a).mulQ ((Quat.axisY T b).mulQ (Quat.axisZ T c))

/-- `plant.rs` `Direction`. -/
inductive Direction where
  | XPos
  | XNeg
  | YPos
  | YNeg
  | ZPos
  | ZNeg
deriving DecidableEq

/-- `plant.rs` `Action`. -/
inductive Action where
  | Nothing
  | Forwards
  | Rotate (d : Direction)
  | Push
  | Pop
deriving DecidableEq

/-- `ui.rs` `OptionsComponent` (the `egui` colour is modelled as an opaque
triple of scalars; it plays no role in the core). -/
structure OptionsComponent where
  rotation_amount : F32
  segment_length : F32
  rules : List (List Char)
  axiomText : List Char
  iterations : ℕ
  line_width : F32
  line_color : F32 × F32 × F32
deriving DecidableEq

/-- `(angle, 0, 0)`-style Euler parameters chosen by `Action::Rotate`'s
`match r` in `generate_verts`. -/
def rotParams (angle : F32) : Direction → F32 × F32 × F32
  | .XPos => (angle, .fin 0, .fin 0)
  | .XNeg => ((F32.fin 0).sub angle, .fin 0, .fin 0)
  | .YPos => (.fin 0, angle, .fin 0)
  | .YNeg => (.fin 0, (F32.fin 0).sub angle, .fin 0)
  | .ZPos => (.fin 0, .fin 0, angle)
  | .ZNeg => (.fin 0, .fin 0, (F32.fin 0).sub angle)

/-- `plant.rs` `RenderState`: the stored cursor and the branch stack
(`states`); both persist inside the `PlantRendererComponent` across calls. -/
structure RenderState where
  cursor : Vec3 × Quat
  states : List (Vec3 × Quat)
deriving DecidableEq

/-- `RenderState::default()`: cursor at the origin with identity orientation,
empty branch stack. -/
def RenderState.dflt : RenderState := ⟨(Vec3.zero, Quat.identity), []⟩

/-- The mutable data of the `for action in actions` loop inside
`generate_verts`: the local `pos`/`rot` cursor copies, the shared
`self.state.states` branch stack, and the local `verts` output. -/
structure LoopState where
  pos : Vec3
  rot : Quat
  states : List (Vec3 × Quat)
  verts : List Vec3
deriving DecidableEq

/-- The line-break sentinel `Vec3::splat(f32::NEG_INFINITY)`. -/
def sentinel : Vec3 := Vec3.splat .negInf

/-- One iteration of the `for action in actions` loop body of
`PlantRendererComponent::generate_verts`. -/
def step (T : Trig) (o : OptionsComponent) (s : LoopState) (a : Action) : LoopState :=
  match a with
  | .Nothing => { s with verts := s.verts ++ [s.pos] }
  | .Forwards =>
      let p := s.pos.add ((s.rot.mulVec3 Vec3.yAxis).smul o.segment_length)
      { s with pos := p, verts := s.verts ++ [p] }
  | .Rotate r =>
      let angle := T.toRadians o.rotation_amount
      let params := rotParams angle r
      { s with rot := s.rot.mulQ (Quat.fromEulerXYZ T params.1 params.2.1 params.2.2) }
  | .Push => { s with states := (s.pos, s.rot) :: s.states }
  | .Pop =>
      match s.states with
      | [] => s
      | (p, r) :: rest =>
          { s with pos := p, rot := r, states := rest,
                   verts := s.verts ++ [sentinel, p] }

/-- `PlantRendererComponent::generate_verts`: copies the stored cursor into
locals, folds the loop body over the action list, returns the produced vertex
list; only the branch stack of the stored state is updated (the stored cursor
field is never written). -/
def generate_verts (T : Trig) (o : OptionsComponent) (rs : RenderState)
    (actions : List Action) : RenderState × List Vec3 :=
  let ts := LoopState.mk rs.cursor.1 rs.cursor.2 rs.states []
  let ts2 := actions.foldl (step T o) ts
  (⟨rs.cursor, ts2.states⟩, ts2.verts)

/-- Properly nested action sequences: every `Pop` matches an earlier `Push` of
the same run, with matching pairs properly nested; all other actions are
unconstrained. -/
inductive Nested : List Action → Prop
  | nil : Nested []
  | other (a : Action) (l : List Action) (h1 : a ≠ Action.Push)
      (h2 : a ≠ Action.Pop) (h : Nested l) : Nested (a :: l)
  | wrap (b l : List Action) (hb : Nested b) (hl : Nested l) :
      Nested (Action.Push :: (b ++ (Action.Pop :: l)))

/-! ## The grammar builder (`PlantBuilderComponent`) -/

/-- ASCII fragment of the regex character class `\s`. -/
def isWs (c : Char) : Bool :=
  c = ' ' || c = '\t' || c = '\n' || c = '\r' || c = Char.ofNat 11 || c = Char.ofNat 12

/-- ASCII fragment of the regex character class `\w`. -/
def isWordChar (c : Char) : Bool := c.isAlpha || c.isDigit || c = '_'

/-- First non-whitespace character together with the remainder after it
(the `\s*X` scanning primitive of the rule regex). -/
def nextNonWs : List Char → Option (Char × List Char)
  | [] => none
  | c :: cs => if isWs c then nextNonWs cs else some (c, cs)

/-- Keep a `nextNonWs` result only when the found character is `=`. -/
def eqAfter : Option (Char × List Char) → Option (List Char)
  | some (c, rest) => if c = '=' then some rest else none
  | none => none

/-- Does a match of `\s*(\w)\s*=\s*((?:\s*\S+\s*)*)\s*` place capture 1 at this
character?  Returns the text following the `=` on success. -/
def hitAt (c : Char) (cs : List Char) : Option (List Char) :=
  if isWordChar c then eqAfter (nextNonWs cs) else none

/-- `RE.captures(rule)` for `RE = \s*(\w)\s*=\s*((?:\s*\S+\s*)*)\s*`, compiled
by hand: the search is unanchored and leftmost, so capture 1 is the first word
character whose next non-whitespace character is `=`; with every quantifier
greedy, capture 2 extends from the first non-whitespace character after the `=`
to the end of the text (internal and trailing whitespace included).  Returns
`(capture 1, characters of capture 2)`. -/
def capturesRE : List Char → Option (Char × List Char)
  | [] => none
  | c :: cs =>
    match hitAt c cs with
    | some rest => some (c, rest.dropWhile isWs)
    | none => capturesRE cs

/-- `dcc_lsystem::ArenaId`, modelled as a natural number. -/
abbrev ArenaId := ℕ

/-- Modelled from the spec: `dcc_lsystem::LSystemBuilder` (the crate is not in
src/).  Holds the arena id allocator, the production rules (at most one per
id — re-declaring replaces, spec §3 invariant 2) and the compiled axiom. -/
structure LSystemBuilder where
  arenaNext : ArenaId
  rules : List (ArenaId × List ArenaId)
  axiomSeq : List ArenaId
deriving DecidableEq

/-- `LSystemBuilder::default()`. -/
def LSystemBuilder.dflt : LSystemBuilder := ⟨0, [], []⟩

/-- Modelled from the spec: `LSystemBuilder::token` registers a token and
returns a fresh arena id (ids are assigned at insertion and never reused). -/
def LSystemBuilder.token (b : LSystemBuilder) : LSystemBuilder × ArenaId :=
  ({ b with arenaNext := b.arenaNext + 1 }, b.arenaNext)

/-- Modelled from the spec: `LSystemBuilder::transformation_rule` stores the
rule, replacing any previous rule for the same id (spec §3 invariant 2); the
caller discards its `Result` via `.ok()`. -/
def LSystemBuilder.transformation_rule (b : LSystemBuilder) (lhs : ArenaId)
    (rhs : List ArenaId) : LSystemBuilder :=
  { b with rules := (lhs, rhs) :: b.rules.filter (fun p => p.1 != lhs) }

/-- Modelled from the spec: `LSystemBuilder::axiom` stores the id sequence;
the caller discards its `Result` via `.ok()`. -/
def LSystemBuilder.setAxiomIds (b : LSystemBuilder) (ids : List ArenaId) :
    LSystemBuilder :=
  { b with axiomSeq := ids }

/-- Association-list lookup, modelling `HashMap::get`. -/
def dlookup {α : Type} (c : Char) : List (Char × α) → Option α
  | [] => none
  | (k, v) :: ts => if k = c then some v else dlookup c ts

/-- `HashMap::insert`: at most one entry per key, inserting replaces. -/
def dinsert {α : Type} (c : Char) (v : α) (l : List (Char × α)) :
    List (Char × α) :=
  (c, v) :: l.filter (fun p => p.1 != c)

/-- `plant.rs` `PlantBuilderComponent`. -/
structure PlantBuilderComponent where
  builder : LSystemBuilder
  tokens : List (Char × (ArenaId × Action))
deriving DecidableEq

/-- `PlantBuilderComponent::default()`. -/
def PlantBuilderComponent.dflt : PlantBuilderComponent := ⟨LSystemBuilder.dflt, []⟩

/-- Builder errors (`anyhow` messages in the source): the
`Captures error: {rule}` parse failure of `add_rule`, and the
`Could not get token with name {token}` resolution failure of `get_token`. -/
inductive BuildErr where
  | CapturesErr (text : List Char)
  | UnknownToken (c : Char)
deriving DecidableEq

/-- `PlantBuilderComponent::get_token` (its `anyhow` error is represented by
`none`; call sites turn it into `BuildErr.UnknownToken`). -/
def get_token (b : PlantBuilderComponent) (c : Char) : Option (ArenaId × Action) :=
  dlookup c b.tokens

/-- The right-hand-side resolution loop of `add_rule`: resolve every character
of capture 2 in order, stopping at the first unregistered one. -/
def resolve_ids (b : PlantBuilderComponent) : List Char → Except Char (List ArenaId)
  | [] => .ok []
  | c :: cs =>
    match get_token b c with
    | none => .error c
    | some (i, _) => (resolve_ids b cs).map (fun ids => i :: ids)

/-- `PlantBuilderComponent::add_rule`.  Returns the builder after the call
(unchanged when the call errors — the only mutation is the final
`transformation_rule`) together with the error, if any. -/
def add_rule (b : PlantBuilderComponent) (text : List Char) :
    PlantBuilderComponent × Option BuildErr :=
  match capturesRE text with
  | none => (b, some (.CapturesErr text))
  | some (lhsC, rhsChars) =>
    match get_token b lhsC with
    | none => (b, some (.UnknownToken lhsC))
    | some (lhsId, _) =>
      match resolve_ids b rhsChars with
      | .error c => (b, some (.UnknownToken c))
      | .ok rhsIds =>
          ({ b with builder := b.builder.transformation_rule lhsId rhsIds }, none)

/-- The `for rule in rules { self.add_rule(rule)?; }` loop of `set_rules`. -/
def addAll (b : PlantBuilderComponent) : List (List Char) →
    PlantBuilderComponent × Option BuildErr
  | [] => (b, none)
  | t :: ts =>
    match add_rule b t with
    | (b2, none) => addAll b2 ts
    | (b2, some e) => (b2, some e)

/-- `self.builder.rules.clear()`. -/
def clearRules (b : PlantBuilderComponent) : PlantBuilderComponent :=
  { b with builder := { b.builder with rules := [] } }

/-- `PlantBuilderComponent::set_rules`. -/
def set_rules (b : PlantBuilderComponent) (rules : List (List Char)) :
    PlantBuilderComponent × Option BuildErr :=
  addAll (clearRules b) rules

/-- `PlantBuilderComponent::set_axiom`: filter-maps every character through the
registry (unknown characters are silently dropped), stores the id sequence, and
always returns `Ok`. -/
def set_axiom (b : PlantBuilderComponent) (text : List Char) :
    PlantBuilderComponent × Option BuildErr :=
  ({ b with builder :=
      b.builder.setAxiomIds (text.filterMap fun c => (get_token b c).map Prod.fst) },
   none)

/-- `PlantBuilderComponent::add_token`. -/
def add_token (b : PlantBuilderComponent) (c : Char) (a : Action) :
    PlantBuilderComponent :=
  { b with builder := b.builder.token.1,
           tokens := dinsert c (b.builder.token.2, a) b.tokens }

/-- `PlantBuilderComponent::set_tokens`: resets the builder and the token map,
then adds each pair in order. -/
def set_tokens (_b : PlantBuilderComponent) (ts : List (Char × Action)) :
    PlantBuilderComponent :=
  ts.foldl (fun acc p => add_token acc p.1 p.2) ⟨LSystemBuilder.dflt, []⟩

/-! ## The plant component (`render_actions`) -/

/-- `plant.rs` `PlantComponent`.  `structure.render()` belongs to the
`dcc_lsystem` crate (absent from src/); Modelled from the spec: the rendered
expansion is an opaque character sequence `rendered`. -/
structure PlantComponent where
  rendered : List Char
  action_map : List (Char × Action)
deriving DecidableEq

/-- The `chars().map(|c| *self.action_map.get(&c).unwrap())` loop of
`render_actions`; the `unwrap` panic is modelled as `none`. -/
def lookupActions (m : List (Char × Action)) : List Char → Option (List Action)
  | [] => some []
  | c :: cs =>
    match dlookup c m with
    | none => none
    | some a => (lookupActions m cs).map (fun acts => a :: acts)

/-- `PlantComponent::render_actions`. -/
def render_actions (p : PlantComponent) : Option (List Action) :=
  lookupActions p.action_map p.rendered

/-! ## Spec-side definitions and concrete instances -/

/-- Spec-side definition (follows the words of the spec, for comparison with
`add_rule`): the claimed rule shape
`<ws>* <symbol> <ws>* '=' <ws>* (<token><ws>*)*`, with the symbol a single
registered character and each right-hand token a registered character. -/
def specRuleShape (reg : Char → Bool) (s : List Char) : Bool :=
  match s.dropWhile isWs with
  | [] => false
  | c :: r1 =>
    reg c &&
      match r1.dropWhile isWs with
      | '=' :: r2 => r2.all (fun d => isWs d || reg d)
      | _ => false

/-- A decomposition of `s` witnessing a match of the rule regex with capture 1
at `c`: `pre` is the text before `c`, `mid` the whitespace between `c` and the
`=`, `post` the text after the `=`. -/
def RuleSplit (s pre : List Char) (c : Char) (mid post : List Char) : Prop :=
  s = pre ++ c :: (mid ++ '=' :: post) ∧ isWordChar c = true ∧ mid.all isWs = true

/-- A concrete interpretation of the transcendental primitives, used by the
closed witnesses (every theorem holds for an arbitrary `Trig`). -/
def trig0 : Trig := ⟨fun _ => .fin 0, fun _ => .fin 1, fun _ => .fin 0⟩

/-- `OptionsComponent::default()` from `ui.rs`. -/
def opts0 : OptionsComponent :=
  { rotation_amount := .fin 30
    segment_length := .fin (1/4)
    rules := ["X=[+F][^F][-F][vF]FX".data, "F=FX".data]
    axiomText := "X".data
    iterations := 6
    line_width := .fin 10
    line_color := (.fin 0, .fin 1, .fin (1/10)) }

/-- The default token set installed by `GameEvent::SpawnNew` in `events.rs`. -/
def pb0 : PlantBuilderComponent :=
  set_tokens PlantBuilderComponent.dflt
    [('X', .Nothing), ('F', .Forwards), ('+', .Rotate .XPos), ('-', .Rotate .XNeg),
     ('>', .Rotate .YPos), ('<', .Rotate .YNeg), ('^', .Rotate .ZPos),
     ('v', .Rotate .ZNeg), ('[', .Push), (']', .Pop)]

/-! ## Theorems: the turtle interpreter -/

/-- Interpreting a properly nested action sequence leaves the branch stack
exactly as it found it and only appends to the vertex list; the final cursor
and the appended vertices are independent of the incoming stack and vertex
list. -/
theorem nested_run (T : Trig) (o : OptionsComponent) {b : List Action}
    (hb : Nested b) : ∀ (p : Vec3) (r : Quat),
    ∃ p2 r2 w, ∀ (st : List (Vec3 × Quat)) (vs : List Vec3),
      List.foldl (step T o) ⟨p, r, st, vs⟩ b = ⟨p2, r2, st, vs ++ w⟩ := by
  induction hb with
  | nil => exact fun p r => ⟨p, r, [], fun st vs => by simp⟩
  | other a l h1 h2 h ih =>
    intro p r
    cases a with
    | Nothing =>
      obtain ⟨p2, r2, w, hw⟩ := ih p r
      refine ⟨p2, r2, [p] ++ w, fun st vs => ?_⟩
      have h0 : List.foldl (step T o) ⟨p, r, st, vs⟩ (Action.Nothing :: l)
          = List.foldl (step T o) ⟨p, r, st, vs ++ [p]⟩ l := rfl
      rw [h0, hw st (vs ++ [p])]
      simp
    | Forwards =>
      obtain ⟨p2, r2, w, hw⟩ :=
        ih (p.add ((r.mulVec3 Vec3.yAxis).smul o.segment_length)) r
      refine ⟨p2, r2, [p.add ((r.mulVec3 Vec3.yAxis).smul o.segment_length)] ++ w,
        fun st vs => ?_⟩
      have h0 : List.foldl (step T o) ⟨p, r, st, vs⟩ (Action.Forwards :: l)
          = List.foldl (step T o)
              ⟨p.add ((r.mulVec3 Vec3.yAxis).smul o.segment_length), r, st,
               vs ++ [p.add ((r.mulVec3 Vec3.yAxis).smul o.segment_length)]⟩ l := rfl
      rw [h0, hw st (vs ++ [p.add ((r.mulVec3 Vec3.yAxis).smul o.segment_length)])]
      simp
    | Rotate d =>
      obtain ⟨p2, r2, w, hw⟩ := ih p
        (r.mulQ (Quat.fromEulerXYZ T (rotParams (T.toRadians o.rotation_amount) d).1
          (rotParams (T.toRadians o.rotation_amount) d).2.1
          (rotParams (T.toRadians o.rotation_amount) d).2.2))
      refine ⟨p2, r2, w, fun st vs => ?_⟩
      have h0 : List.foldl (step T o) ⟨p, r, st, vs⟩ (Action.Rotate d :: l)
          = List.foldl (step T o)
              ⟨p, r.mulQ (Quat.fromEulerXYZ T
                  (rotParams (T.toRadians o.rotation_amount) d).1
                  (rotParams (T.toRadians o.rotation_amount) d).2.1
                  (rotParams (T.toRadians o.rotation_amount) d).2.2), st, vs⟩ l := rfl
      rw [h0, hw st vs]
    | Push => exact absurd rfl h1
    | Pop => exact absurd rfl h2
  | wrap b l hbn hln ihb ihl =>
    intro p r
    obtain ⟨pb, rb, wb, hwb⟩ := ihb p r
    obtain ⟨pl, rl, wl, hwl⟩ := ihl p r
    refine ⟨pl, rl, wb ++ ([sentinel, p] ++ wl), fun st vs => ?_⟩
    have h0 : List.foldl (step T o) ⟨p, r, st, vs⟩
          (Action.Push :: (b ++ (Action.Pop :: l)))
        = List.foldl (step T o) ⟨p, r, (p, r) :: st, vs⟩ (b ++ (Action.Pop :: l)) := rfl
    rw [h0, List.foldl_append, hwb ((p, r) :: st) vs]
    have h1 : List.foldl (step T o) ⟨pb, rb, (p, r) :: st, vs ++ wb⟩ (Action.Pop :: l)
        = List.foldl (step T o) ⟨p, r, st, (vs ++ wb) ++ [sentinel, p]⟩ l := rfl
    rw [h1, hwl st ((vs ++ wb) ++ [sentinel, p])]
    simp

/-- C1: interpreting `Push ; b ; Pop` for a properly nested body `b` restores
the cursor at the closing `Pop` to exactly the position and orientation saved
at the matching `Push`, restores the branch stack, and appends exactly one
sentinel break (followed by the restored position) beyond the vertices of `b`
alone. -/
theorem nested_push_pop_roundtrip (T : Trig) (o : OptionsComponent)
    (ts : LoopState) {b : List Action} (hb : Nested b) :
    List.foldl (step T o) ts (Action.Push :: (b ++ [Action.Pop]))
      = ⟨ts.pos, ts.rot, ts.states,
         (List.foldl (step T o) ts b).verts ++ [sentinel, ts.pos]⟩ := by
  obtain ⟨p, r, st, vs⟩ := ts
  obtain ⟨pb, rb, wb, hw⟩ := nested_run T o hb p r
  have h0 : List.foldl (step T o) ⟨p, r, st, vs⟩ (Action.Push :: (b ++ [Action.Pop]))
      = List.foldl (step T o) ⟨p, r, (p, r) :: st, vs⟩ (b ++ [Action.Pop]) := rfl
  rw [h0, List.foldl_append, hw ((p, r) :: st) vs]
  have h1 : List.foldl (step T o) ⟨pb, rb, (p, r) :: st, vs ++ wb⟩ [Action.Pop]
      = ⟨p, r, st, (vs ++ wb) ++ [sentinel, p]⟩ := rfl
  rw [h1, hw st vs]

/-- Witness for C1 at the concrete body `[Action.Forwards]` with the default
options. -/
theorem nested_push_pop_roundtrip_witness :
    List.foldl (step trig0 opts0)
        (⟨Vec3.zero, Quat.identity, [], []⟩ : LoopState)
        (Action.Push :: ([Action.Forwards] ++ [Action.Pop]))
      = ⟨Vec3.zero, Quat.identity, [],
         (List.foldl (step trig0 opts0)
            (⟨Vec3.zero, Quat.identity, [], []⟩ : LoopState)
            [Action.Forwards]).verts ++ [sentinel, Vec3.zero]⟩ :=
  nested_push_pop_roundtrip trig0 opts0 _
    (Nested.other Action.Forwards [] (by decide) (by decide) Nested.nil)

/-- C2 counterexample: `generate_verts` does not clear the branch stack, so a
run consisting of a single `Push` leaves its snapshot on the component's stack,
and a later `Pop`-only run on the same plant consumes it — emitting a sentinel
and a restored point although that run never pushed. -/
theorem stack_persists_across_runs_counterexample :
    (generate_verts trig0 opts0 RenderState.dflt [Action.Push]).1.states ≠ [] ∧
    (generate_verts trig0 opts0
        (generate_verts trig0 opts0 RenderState.dflt [Action.Push]).1
        [Action.Pop]).2 ≠ [] := by
  constructor <;> decide

/-- C2 (amended): the branch stack is empty as the default value of a freshly
created renderer component, and a properly nested (balanced) run returns the
stack to exactly its pre-run contents — so as long as every run is balanced no
snapshot is visible to a later run; the stack field itself persists in the
component across calls and is not cleared by `generate_verts`. -/
theorem balanced_run_preserves_stack (T : Trig) (o : OptionsComponent)
    (rs : RenderState) {acts : List Action} (hb : Nested acts) :
    (generate_verts T o rs acts).1.states = rs.states ∧
    RenderState.dflt.states = [] := by
  refine ⟨?_, rfl⟩
  obtain ⟨⟨p, r⟩, st⟩ := rs
  obtain ⟨p2, r2, w, hw⟩ := nested_run T o hb p r
  simp [generate_verts, hw st []]

/-- Witness for C2 (amended) at the balanced sequence `[Push, Pop]`. -/
theorem balanced_run_preserves_stack_witness :
    (generate_verts trig0 opts0 RenderState.dflt
        (Action.Push :: ([] ++ (Action.Pop :: [])))).1.states
      = RenderState.dflt.states ∧
    RenderState.dflt.states = [] :=
  balanced_run_preserves_stack trig0 opts0 RenderState.dflt
    (Nested.wrap [] [] Nested.nil Nested.nil)

/-- C3: a `Pop` processed while the branch stack is empty is a complete
no-op — no point, no sentinel, no error, cursor and stack unchanged — both as
a single step and under `generate_verts`. -/
theorem pop_empty_stack_noop (T : Trig) (o : OptionsComponent)
    (ts : LoopState) (rs : RenderState) (l : List Action)
    (h1 : ts.states = []) (h2 : rs.states = []) :
    step T o ts Action.Pop = ts ∧
    List.foldl (step T o) ts (Action.Pop :: l) = List.foldl (step T o) ts l ∧
    generate_verts T o rs (Action.Pop :: l) = generate_verts T o rs l := by
  obtain ⟨p, r, st, vs⟩ := ts
  obtain ⟨⟨pp, rr⟩, st2⟩ := rs
  change st = [] at h1
  change st2 = [] at h2
  subst h1
  subst h2
  exact ⟨rfl, rfl, rfl⟩

/-- Witness for C3 on a concrete `Pop`-first sequence from the default
(empty-stack) state. -/
theorem pop_empty_stack_noop_witness :
    step trig0 opts0 (⟨Vec3.zero, Quat.identity, [], []⟩ : LoopState) Action.Pop
      = (⟨Vec3.zero, Quat.identity, [], []⟩ : LoopState) ∧
    List.foldl (step trig0 opts0) (⟨Vec3.zero, Quat.identity, [], []⟩ : LoopState)
        (Action.Pop :: [Action.Forwards])
      = List.foldl (step trig0 opts0)
          (⟨Vec3.zero, Quat.identity, [], []⟩ : LoopState) [Action.Forwards] ∧
    generate_verts trig0 opts0 RenderState.dflt (Action.Pop :: [Action.Forwards])
      = generate_verts trig0 opts0 RenderState.dflt [Action.Forwards] :=
  pop_empty_stack_noop trig0 opts0 _ _ [Action.Forwards] rfl rfl

/-- C8: processing `Forwards` moves the position by exactly `segment_length`
along the orientation applied to the fixed forward unit vector `Vec3::Y`,
appends exactly one point — the new position — and leaves the orientation and
the branch stack untouched. -/
theorem step_forwards_spec (T : Trig) (o : OptionsComponent) (s : LoopState) :
    step T o s Action.Forwards
      = ⟨s.pos.add ((s.rot.mulVec3 Vec3.yAxis).smul o.segment_length), s.rot,
         s.states,
         s.verts ++ [s.pos.add ((s.rot.mulVec3 Vec3.yAxis).smul o.segment_length)]⟩ :=
  rfl

/-- C10: `generate_verts` never writes the stored cursor field of the render
state — the returned state carries the incoming cursor unchanged (all cursor
updates happen on the local copies) — and the default stored cursor is the
origin with identity orientation. -/
theorem generate_verts_preserves_cursor (T : Trig) (o : OptionsComponent)
    (rs : RenderState) (acts : List Action) :
    (generate_verts T o rs acts).1.cursor = rs.cursor ∧
    RenderState.dflt.cursor = (Vec3.zero, Quat.identity) :=
  ⟨rfl, rfl⟩

/-! ## Theorems: the grammar builder -/

/-- `add_rule` never touches the token registry. -/
theorem add_rule_tokens (b : PlantBuilderComponent) (t : List Char) :
    (add_rule b t).1.tokens = b.tokens := by
  rcases hc : capturesRE t with _ | ⟨c, rhs⟩
  · simp [add_rule, hc]
  · rcases hg : get_token b c with _ | ⟨i, a⟩
    · simp [add_rule, hc, hg]
    · rcases hr : resolve_ids b rhs with d | ids
      · simp [add_rule, hc, hg, hr]
      · simp [add_rule, hc, hg, hr]

/-- When `add_rule` errors, the builder is returned unchanged: the only
mutation, `transformation_rule`, happens after all resolution succeeded. -/
theorem add_rule_err_fst (b : PlantBuilderComponent) (t : List Char)
    (h : (add_rule b t).2 ≠ none) : (add_rule b t).1 = b := by
  rcases hc : capturesRE t with _ | ⟨c, rhs⟩
  · simp [add_rule, hc]
  · rcases hg : get_token b c with _ | ⟨i, a⟩
    · simp [add_rule, hc, hg]
    · rcases hr : resolve_ids b rhs with d | ids
      · simp [add_rule, hc, hg, hr]
      · exact absurd (by simp [add_rule, hc, hg, hr]) h

/-- `resolve_ids` depends only on the token registry. -/
theorem resolve_ids_congr (b b2 : PlantBuilderComponent)
    (h : b.tokens = b2.tokens) : ∀ l, resolve_ids b l = resolve_ids b2 l := by
  intro l
  induction l with
  | nil => rfl
  | cons c cs ih => simp [resolve_ids, get_token, h, ih]

/-- The outcome (success or error value) of `add_rule` depends only on the
token registry, not on the rules accumulated so far. -/
theorem add_rule_snd_congr (b b2 : PlantBuilderComponent) (t : List Char)
    (h : b.tokens = b2.tokens) : (add_rule b t).2 = (add_rule b2 t).2 := by
  rcases hc : capturesRE t with _ | ⟨c, rhs⟩
  · simp [add_rule, hc]
  · have hg2 : get_token b2 c = get_token b c := by simp [get_token, h]
    rcases hg : get_token b c with _ | ⟨i, a⟩
    · simp [add_rule, hc, hg, hg2]
    · have hr2 : resolve_ids b2 rhs = resolve_ids b rhs :=
        (resolve_ids_congr b2 b h.symm rhs)
      rcases hr : resolve_ids b rhs with d | ids
      · simp [add_rule, hc, hg, hg2, hr, hr2]
      · simp [add_rule, hc, hg, hg2, hr, hr2]

/-- `addAll` never touches the token registry. -/
theorem addAll_tokens (l : List (List Char)) :
    ∀ b : PlantBuilderComponent, (addAll b l).1.tokens = b.tokens := by
  induction l with
  | nil => intro b; rfl
  | cons t ts ih =>
    intro b
    rcases hr : add_rule b t with ⟨b2, e⟩
    have hb2 : b2.tokens = b.tokens := by
      have := add_rule_tokens b t
      rw [hr] at this
      exact this
    cases e with
    | none =>
      have h0 : addAll b (t :: ts) = addAll b2 ts := by simp [addAll, hr]
      rw [h0, ih b2, hb2]
    | some e2 =>
      have h0 : addAll b (t :: ts) = (b2, some e2) := by simp [addAll, hr]
      rw [h0]
      exact hb2

/-- Splitting the `set_rules` loop at a successful prefix. -/
theorem addAll_append_ok (l1 : List (List Char)) :
    ∀ (b b1 : PlantBuilderComponent) (l2 : List (List Char)),
      addAll b l1 = (b1, none) → addAll b (l1 ++ l2) = addAll b1 l2 := by
  induction l1 with
  | nil =>
    intro b b1 l2 h
    simp [addAll] at h
    simp [h]
  | cons t ts ih =>
    intro b b1 l2 h
    rcases hr : add_rule b t with ⟨b2, e⟩
    cases e with
    | none =>
      have h0 : addAll b (t :: ts) = addAll b2 ts := by simp [addAll, hr]
      rw [h0] at h
      have h1 : addAll b (t :: (ts ++ l2)) = addAll b2 (ts ++ l2) := by
        simp [addAll, hr]
      rw [List.cons_append, h1]
      exact ih b2 b1 l2 h
    | some e2 =>
      have h0 : addAll b (t :: ts) = (b2, some e2) := by simp [addAll, hr]
      rw [h0] at h
      simp at h

/-- An unresolvable right-hand-side character makes `resolve_ids` fail, and
the reported character is itself unresolvable. -/
theorem resolve_ids_error_of_missing (b : PlantBuilderComponent) :
    ∀ l : List Char, (∃ d ∈ l, get_token b d = none) →
      ∃ c, resolve_ids b l = .error c ∧ get_token b c = none := by
  intro l
  induction l with
  | nil => rintro ⟨d, hd, _⟩; cases hd
  | cons e cs ih =>
    rintro ⟨d, hd, hnone⟩
    rcases hg : get_token b e with _ | ⟨i, a⟩
    · exact ⟨e, by simp [resolve_ids, hg], hg⟩
    · have hcs : ∃ d ∈ cs, get_token b d = none := by
        rcases List.mem_cons.mp hd with heq | hmem
        · subst heq; rw [hg] at hnone; cases hnone
        · exact ⟨d, hmem, hnone⟩
      obtain ⟨c, hc1, hc2⟩ := ih hcs
      exact ⟨c, by simp [resolve_ids, hg, hc1, Except.map], hc2⟩

/-- A failing `resolve_ids` pinpoints an unresolvable character of the list. -/
theorem resolve_ids_error_mem (b : PlantBuilderComponent) :
    ∀ (l : List Char) (c : Char), resolve_ids b l = .error c →
      get_token b c = none ∧ c ∈ l := by
  intro l
  induction l with
  | nil => intro c h; simp [resolve_ids] at h
  | cons d cs ih =>
    intro c h
    rcases hg : get_token b d with _ | ⟨i, a⟩
    · have heq : d = c := by simpa [resolve_ids, hg] using h
      subst heq
      exact ⟨hg, List.mem_cons_self d cs⟩
    · rcases hr : resolve_ids b cs with e | ids
      · have heq : e = c := by simpa [resolve_ids, hg, hr, Except.map] using h
        subst heq
        obtain ⟨h1, h2⟩ := ih e hr
        exact ⟨h1, List.mem_cons_of_mem d h2⟩
      · simp [resolve_ids, hg, hr, Except.map] at h

/-- When every character resolves, `resolve_ids` succeeds. -/
theorem resolve_ids_ok_of_all (b : PlantBuilderComponent) :
    ∀ l : List Char, (∀ d ∈ l, (get_token b d).isSome = true) →
      ∃ ids, resolve_ids b l = .ok ids := by
  intro l
  induction l with
  | nil => intro _; exact ⟨[], rfl⟩
  | cons c cs ih =>
    intro hall
    rcases hg : get_token b c with _ | ⟨i, a⟩
    · have := hall c (List.mem_cons_self c cs)
      rw [hg] at this
      simp at this
    · obtain ⟨ids, hids⟩ := ih (fun d hd => hall d (List.mem_cons_of_mem _ hd))
      exact ⟨i :: ids, by simp [resolve_ids, hg, hids, Except.map]⟩

/-- `resolve_ids` succeeds exactly when every character is registered. -/
theorem resolve_ids_ok_iff (b : PlantBuilderComponent) (l : List Char) :
    (∃ ids, resolve_ids b l = .ok ids) ↔
      ∀ d ∈ l, (get_token b d).isSome = true := by
  constructor
  · rintro ⟨ids, hids⟩ d hd
    rcases hg : get_token b d with _ | x
    · obtain ⟨e, he1, _⟩ := resolve_ids_error_of_missing b l ⟨d, hd, hg⟩
      rw [hids] at he1
      cases he1
    · rfl
  · exact resolve_ids_ok_of_all b l

/-- C5: if a rule text parses but mentions an unregistered symbol (left-hand
or right-hand), `add_rule` returns the unknown-token error and leaves the
builder exactly as it was — no partially resolved rule is added — and inside a
`set_rules` batch the rules added before the failing text are retained while
the remaining texts are never reached. -/
theorem add_rule_unknown_token_no_mutation (b b1 : PlantBuilderComponent)
    (t : List Char) (c : Char) (rhs : List Char) (pre rest : List (List Char))
    (hc : capturesRE t = some (c, rhs))
    (hbad : get_token b c = none ∨ ∃ d ∈ rhs, get_token b d = none)
    (hpre : addAll (clearRules b) pre = (b1, none)) :
    ∃ e, get_token b e = none ∧
      add_rule b t = (b, some (.UnknownToken e)) ∧
      set_rules b (pre ++ t :: rest) = (b1, some (.UnknownToken e)) := by
  have htok : b1.tokens = b.tokens := by
    have h0 := addAll_tokens pre (clearRules b)
    rw [hpre] at h0
    exact h0
  obtain ⟨e, he, harr⟩ : ∃ e, get_token b e = none ∧
      add_rule b t = (b, some (.UnknownToken e)) := by
    rcases hg : get_token b c with _ | ⟨i, a⟩
    · exact ⟨c, hg, by simp [add_rule, hc, hg]⟩
    · rcases hbad with hl | ⟨d, hd, hdn⟩
      · rw [hg] at hl; cases hl
      · obtain ⟨e, he1, he2⟩ := resolve_ids_error_of_missing b rhs ⟨d, hd, hdn⟩
        exact ⟨e, he2, by simp [add_rule, hc, hg, he1]⟩

  refine ⟨e, he, harr, ?_⟩
  have hsnd : (add_rule b1 t).2 = some (.UnknownToken e) := by
    rw [add_rule_snd_congr b1 b t htok, harr]
  have hfst : (add_rule b1 t).1 = b1 :=
    add_rule_err_fst b1 t (by rw [hsnd]; exact Option.some_ne_none _)
  have hb1 : add_rule b1 t = (b1, some (.UnknownToken e)) := by
    rcases hp : add_rule b1 t with ⟨x, y⟩
    rw [hp] at hfst hsnd
    simp only [Prod.fst, Prod.snd] at hfst hsnd
    rw [hfst, hsnd]
  rw [set_rules, addAll_append_ok pre (clearRules b) b1 (t :: rest) hpre]
  simp [addAll, hb1]

/-- Witness for C5 on the default token set: `"X=FQ"` parses but `Q` is
unregistered; the builder is unchanged and the earlier batch rule `"X=F"` is
retained. -/
theorem add_rule_unknown_token_no_mutation_witness :
    ∃ e, get_token pb0 e = none ∧
      add_rule pb0 "X=FQ".data = (pb0, some (.UnknownToken e)) ∧
      set_rules pb0 (["X=F".data] ++ "X=FQ".data :: ["F=FX".data])
        = ((addAll (clearRules pb0) ["X=F".data]).1, some (.UnknownToken e)) :=
  add_rule_unknown_token_no_mutation pb0
    ((addAll (clearRules pb0) ["X=F".data]).1) "X=FQ".data 'X' "FQ".data
    ["X=F".data] ["F=FX".data] (by decide)
    (Or.inr ⟨'Q', by decide, by decide⟩) (by decide)

/-- C7: `set_rules` first clears the stored rules, then adds the given texts
in order; the first failing text stops processing (the remaining texts are
never examined) and its error is returned to the caller. -/
theorem set_rules_first_failure (b b1 b2 : PlantBuilderComponent)
    (pre rest : List (List Char)) (bad : List Char) (e : BuildErr)
    (hpre : addAll (clearRules b) pre = (b1, none))
    (hbad : add_rule b1 bad = (b2, some e)) :
    (clearRules b).builder.rules = [] ∧
    set_rules b (pre ++ bad :: rest) = (b2, some e) := by
  refine ⟨rfl, ?_⟩
  rw [set_rules, addAll_append_ok pre (clearRules b) b1 (bad :: rest) hpre]
  simp [addAll, hbad]

/-- Witness for C7 on a concrete batch whose second rule fails. -/
theorem set_rules_first_failure_witness :
    (clearRules pb0).builder.rules = [] ∧
    set_rules pb0 (["X=F".data] ++ "X=FQ".data :: ["F=FX".data])
      = ((addAll (clearRules pb0) ["X=F".data]).1, some (.UnknownToken 'Q')) :=
  set_rules_first_failure pb0 ((addAll (clearRules pb0) ["X=F".data]).1)
    ((addAll (clearRules pb0) ["X=F".data]).1) ["X=F".data] ["F=FX".data]
    "X=FQ".data (.UnknownToken 'Q') (by decide) (by decide)

/-- The id sequence produced by `filterMap` is pointwise the resolution of the
characters that pass the `isSome` filter, in order. -/
theorem filterMap_pointwise {α β : Type} (f : α → Option β) :
    ∀ l : List α, List.Forall₂ (fun a b2 => f a = some b2)
      (l.filter fun a => (f a).isSome) (l.filterMap f) := by
  intro l
  induction l with
  | nil => simp
  | cons a l ih =>
    rcases hf : f a with _ | b2
    · simpa [List.filter_cons, List.filterMap_cons, hf] using ih
    · simp only [List.filter_cons, List.filterMap_cons, hf, Option.isSome_some,
        if_true]
      exact List.Forall₂.cons hf ih

/-- C6: `set_axiom` never fails — it returns success for every text and
registry — and the stored axiom is exactly the in-order id sequence of those
characters of the text that are registered; unregistered characters are
silently dropped and the registry is untouched. -/
theorem set_axiom_total (b : PlantBuilderComponent) (t : List Char) :
    ( set_axiom b t).2 = none ∧
    List.Forall₂ (fun c i => (get_token b c).map Prod.fst = some i)
      (t.filter fun c => (get_token b c).isSome)
      (( set_axiom b t).1.builder.axiomSeq) ∧
    ( set_axiom b t).1.tokens = b.tokens := by
  refine ⟨rfl, ?_, rfl⟩
  have hax : ( set_axiom b t).1.builder.axiomSeq
      = t.filterMap fun c => (get_token b c).map Prod.fst := rfl
  have hpred : ∀ c, ((get_token b c).map Prod.fst).isSome = (get_token b c).isSome :=
    fun c => by cases get_token b c <;> rfl
  rw [hax]
  have := filterMap_pointwise (fun c => (get_token b c).map Prod.fst) t
  simpa [hpred] using this

/-! ## Theorems: characterization of the rule regex -/

/-- Dropping whitespace from an all-whitespace prefix stops exactly at the
first non-whitespace character. -/
theorem dropWhile_ws_of_append (xs : List Char) (y : Char) (t : List Char)
    (hxs : xs.all isWs = true) (hy : isWs y = false) :
    (xs ++ y :: t).dropWhile isWs = y :: t := by
  induction xs with
  | nil => simp [List.dropWhile_cons, hy]
  | cons x xs ih =>
    simp only [List.all_cons, Bool.and_eq_true] at hxs
    simp [List.dropWhile_cons, hxs.1, ih hxs.2]

/-- `nextNonWs` finds exactly the decomposition into an all-whitespace prefix
followed by the first non-whitespace character. -/
theorem nextNonWs_some_iff (l : List Char) (c : Char) (rest : List Char) :
    nextNonWs l = some (c, rest) ↔
      ∃ ws1, ws1.all isWs = true ∧ isWs c = false ∧ l = ws1 ++ c :: rest := by
  induction l with
  | nil =>
    constructor
    · intro h
      exact absurd h (by simp [nextNonWs])
    · rintro ⟨ws1, h1, h2, h3⟩
      exact absurd h3.symm (by simp)
  | cons a l ih =>
    cases ha : isWs a with
    | true =>
      rw [show nextNonWs (a :: l) = nextNonWs l from by simp [nextNonWs, ha], ih]
      constructor
      · rintro ⟨ws1, h1, h2, h3⟩
        exact ⟨a :: ws1, by simp [List.all_cons, ha, h1], h2, by simp [h3]⟩
      · rintro ⟨ws1, h1, h2, h3⟩
        cases ws1 with
        | nil =>
          simp only [List.nil_append] at h3
          injection h3 with h31 h32
          subst h31
          rw [h2] at ha
          cases ha
        | cons w ws =>
          rw [List.cons_append] at h3
          injection h3 with h31 h32
          simp only [List.all_cons, Bool.and_eq_true] at h1
          exact ⟨ws, h1.2, h2, h32⟩
    | false =>
      rw [show nextNonWs (a :: l) = some (a, l) from by simp [nextNonWs, ha]]
      constructor
      · intro h
        simp only [Option.some.injEq, Prod.mk.injEq] at h
        obtain ⟨rfl, rfl⟩ := h
        exact ⟨[], rfl, ha, by simp⟩
      · rintro ⟨ws1, h1, h2, h3⟩
        cases ws1 with
        | nil =>
          simp only [List.nil_append] at h3
          injection h3 with h31 h32
          subst h31
          subst h32
          rfl
        | cons w ws =>
          rw [List.cons_append] at h3
          injection h3 with h31 h32
          subst h31
          simp only [List.all_cons, Bool.and_eq_true] at h1
          rw [h1.1] at ha
          cases ha

/-- `hitAt a s` succeeds exactly when `a` is a word character whose next
non-whitespace character (within `s`) is `=`; the returned text is everything
after that `=`. -/
theorem hitAt_some_iff (a : Char) (s : List Char) (rest : List Char) :
    hitAt a s = some rest ↔
      isWordChar a = true ∧
        ∃ mid, mid.all isWs = true ∧ s = mid ++ '=' :: rest := by
  by_cases hw : isWordChar a = true
  · rcases hn : nextNonWs s with _ | ⟨c, r⟩
    · constructor
      · intro h
        simp [hitAt, hw, hn, eqAfter] at h
      · rintro ⟨_, mid, h1, h2⟩
        have h4 : nextNonWs s = some ('=', rest) :=
          (nextNonWs_some_iff s '=' rest).mpr ⟨mid, h1, by decide, h2⟩
        rw [hn] at h4
        cases h4
    · by_cases hc : c = '='
      · subst hc
        constructor
        · intro h
          simp [hitAt, hw, hn, eqAfter] at h
          subst h
          obtain ⟨ws1, g1, _, g3⟩ := (nextNonWs_some_iff s '=' r).mp hn
          exact ⟨hw, ws1, g1, g3⟩
        · rintro ⟨_, mid, h1, h2⟩
          have h4 : nextNonWs s = some ('=', rest) :=
            (nextNonWs_some_iff s '=' rest).mpr ⟨mid, h1, by decide, h2⟩
          rw [hn] at h4
          simp only [Option.some.injEq, Prod.mk.injEq] at h4
          simp [hitAt, hw, hn, eqAfter, h4.2]
      · constructor
        · intro h
          simp [hitAt, hw, hn, eqAfter, hc] at h
        · rintro ⟨_, mid, h1, h2⟩
          have h4 : nextNonWs s = some ('=', rest) :=
            (nextNonWs_some_iff s '=' rest).mpr ⟨mid, h1, by decide, h2⟩
          rw [hn] at h4
          simp only [Option.some.injEq, Prod.mk.injEq] at h4
          exact absurd h4.1 hc
  · constructor
    · intro h
      simp [hitAt, hw] at h
    · rintro ⟨h, _⟩
      exact absurd h hw

/-- Characterization of the hand-compiled regex search: `capturesRE` returns
the leftmost viable match — capture 1 is the first word character whose next
non-whitespace character is `=` — together with capture 2 stripped of leading
whitespace. -/
theorem capturesRE_some_iff (s : List Char) (cc : Char) (r : List Char) :
    capturesRE s = some (cc, r) ↔
      ∃ pre mid post, RuleSplit s pre cc mid post ∧ r = post.dropWhile isWs ∧
        ∀ pre2 c2 mid2 post2, RuleSplit s pre2 c2 mid2 post2 →
          pre.length ≤ pre2.length := by
  induction s with
  | nil =>
    constructor
    · intro h
      exact absurd h (by simp [capturesRE])
    · rintro ⟨pre, mid, post, ⟨h, _, _⟩, _, _⟩
      exact absurd h.symm (by simp)
  | cons a s ih =>
    rcases hm : hitAt a s with _ | rest
    · have hstep : capturesRE (a :: s) = capturesRE s := by
        simp [capturesRE, hm]
      rw [hstep, ih]
      constructor
      · rintro ⟨pre, mid, post, ⟨hs, hw, hmid⟩, hr, hmin⟩
        refine ⟨a :: pre, mid, post, ⟨by rw [hs, List.cons_append], hw, hmid⟩, hr, ?_⟩
        rintro pre2 c2 mid2 post2 ⟨hs2, hw2, hmid2⟩
        cases pre2 with
        | nil =>
          simp only [List.nil_append] at hs2
          injection hs2 with h21 h22
          subst h21
          have : hitAt a s = some post2 :=
            (hitAt_some_iff a s post2).mpr ⟨hw2, mid2, hmid2, h22⟩
          rw [hm] at this
          cases this
        | cons x pre2 =>
          rw [List.cons_append] at hs2
          injection hs2 with h21 h22
          have := hmin pre2 c2 mid2 post2 ⟨h22, hw2, hmid2⟩
          simpa using Nat.succ_le_succ this
      · rintro ⟨pre, mid, post, ⟨hs, hw, hmid⟩, hr, hmin⟩
        cases pre with
        | nil =>
          simp only [List.nil_append] at hs
          injection hs with h01 h02
          subst h01
          have : hitAt a s = some post :=
            (hitAt_some_iff a s post).mpr ⟨hw, mid, hmid, h02⟩
          rw [hm] at this
          cases this
        | cons x pre =>
          rw [List.cons_append] at hs
          injection hs with h01 h02
          subst h01
          refine ⟨pre, mid, post, ⟨h02, hw, hmid⟩, hr, ?_⟩
          rintro pre2 c2 mid2 post2 ⟨hs2, hw2, hmid2⟩
          have := hmin (a :: pre2) c2 mid2 post2
            ⟨by rw [hs2, List.cons_append], hw2, hmid2⟩
          simpa using this
    · have hstep : capturesRE (a :: s) = some (a, rest.dropWhile isWs) := by
        simp [capturesRE, hm]
      rw [hstep]
      obtain ⟨hw, mid0, hmid0, hs0⟩ := (hitAt_some_iff a s rest).mp hm
      constructor
      · intro h
        simp only [Option.some.injEq, Prod.mk.injEq] at h
        obtain ⟨rfl, rfl⟩ := h
        refine ⟨[], mid0, rest, ⟨by rw [hs0, List.nil_append], hw, hmid0⟩, rfl, ?_⟩
        intro pre2 c2 mid2 post2 _
        exact Nat.zero_le _
      · rintro ⟨pre, mid, post, ⟨hs, hwcc, hmid⟩, hr, hmin⟩
        have h0 : pre.length ≤ 0 :=
          hmin [] a mid0 rest ⟨by rw [hs0, List.nil_append], hw, hmid0⟩
        have hnil : pre = [] := List.length_eq_zero.mp (Nat.le_zero.mp h0)
        subst hnil
        simp only [List.nil_append] at hs
        injection hs with h01 h02
        subst h01
        have e1 : (mid ++ '=' :: post).dropWhile isWs = '=' :: post :=
          dropWhile_ws_of_append mid '=' post hmid (by decide)
        have e2 : (mid0 ++ '=' :: rest).dropWhile isWs = '=' :: rest :=
          dropWhile_ws_of_append mid0 '=' rest hmid0 (by decide)
        rw [← h02] at e1
        rw [← hs0] at e2
        rw [e1] at e2
        injection e2 with _ e3
        rw [hr, e3]

/-- `add_rule` succeeds exactly when the regex matches and every captured
character resolves. -/
theorem add_rule_ok_iff (b : PlantBuilderComponent) (t : List Char) :
    (add_rule b t).2 = none ↔
      ∃ c rhs, capturesRE t = some (c, rhs) ∧ (get_token b c).isSome = true ∧
        ∀ d ∈ rhs, (get_token b d).isSome = true := by
  rcases hc : capturesRE t with _ | ⟨c, rhs⟩
  · simp [add_rule, hc]
  · rcases hg : get_token b c with _ | ⟨i, a⟩
    · simp [add_rule, hc, hg]
    · rcases hr : resolve_ids b rhs with d | ids
      · simp only [add_rule, hc, hg, hr]
        constructor
        · intro h
          cases h
        · rintro ⟨c2, rhs2, hc2, _, hall⟩
          simp only [Option.some.injEq, Prod.mk.injEq] at hc2
          obtain ⟨rfl, rfl⟩ := hc2
          obtain ⟨hd1, hd2⟩ := resolve_ids_error_mem b rhs d hr
          have hds := hall d hd2
          rw [hd1] at hds
          exact absurd hds (by simp)
      · simp only [add_rule, hc, hg, hr]
        constructor
        · intro _
          refine ⟨c, rhs, rfl, by rw [hg]; rfl, ?_⟩
          exact (resolve_ids_ok_iff b rhs).mp ⟨ids, hr⟩
        · intro _
          trivial

/-- C4 (amended): `add_rule` accepts exactly the texts that contain a word
character whose next non-whitespace character is `=` such that, at the first
such occurrence, the left-hand character and every character after the `=`
(leading whitespace stripped, interior whitespace kept) are registered.  Text
before the matched symbol is ignored (the search is unanchored), and interior
whitespace of the right-hand side is resolved like any other character. -/
theorem add_rule_success_iff (b : PlantBuilderComponent) (t : List Char) :
    (add_rule b t).2 = none ↔
      ∃ pre c mid post, RuleSplit t pre c mid post ∧
        (∀ pre2 c2 mid2 post2, RuleSplit t pre2 c2 mid2 post2 →
          pre.length ≤ pre2.length) ∧
        (get_token b c).isSome = true ∧
        ∀ d ∈ post.dropWhile isWs, (get_token b d).isSome = true := by
  rw [add_rule_ok_iff]
  constructor
  · rintro ⟨c, rhs, hc, hcs, hall⟩
    obtain ⟨pre, mid, post, hsplit, hr, hmin⟩ := (capturesRE_some_iff t c rhs).mp hc
    exact ⟨pre, c, mid, post, hsplit, hmin, hcs, by rw [← hr]; exact hall⟩
  · rintro ⟨pre, c, mid, post, hsplit, hmin, hcs, hall⟩
    exact ⟨c, post.dropWhile isWs,
      (capturesRE_some_iff t c _).mpr ⟨pre, mid, post, hsplit, rfl, hmin⟩, hcs, hall⟩

/-- Witness for C4 (amended): the default rule text `"F=FX"` is accepted and
the characterization produces its decomposition. -/
theorem add_rule_success_iff_witness :
    ∃ pre c mid post, RuleSplit "F=FX".data pre c mid post ∧
      (∀ pre2 c2 mid2 post2, RuleSplit "F=FX".data pre2 c2 mid2 post2 →
        pre.length ≤ pre2.length) ∧
      (get_token pb0 c).isSome = true ∧
      ∀ d ∈ post.dropWhile isWs, (get_token pb0 d).isSome = true :=
  (add_rule_success_iff pb0 "F=FX".data).mp (by decide)

/-- C4 counterexample: `"X=F F"` is of the claimed textual shape for the
default token set yet `add_rule` rejects it (the interior space of capture 2
is resolved as a token and fails), while `"?X=FX"` is not of the claimed
shape yet `add_rule` accepts it (the unanchored regex search skips the
leading `?`). -/
theorem rule_shape_mismatch_counterexample :
    (specRuleShape (fun c => (dlookup c pb0.tokens).isSome) "X=F F".data = true ∧
      (add_rule pb0 "X=F F".data).2 ≠ none) ∧
    (specRuleShape (fun c => (dlookup c pb0.tokens).isSome) "?X=FX".data = false ∧
      (add_rule pb0 "?X=FX".data).2 = none) := by
  refine ⟨⟨?_, ?_⟩, ?_, ?_⟩ <;> decide

/-! ## Theorems: render_actions -/

/-- `lookupActions` fails exactly when some character has no action. -/
theorem lookupActions_none_iff (m : List (Char × Action)) :
    ∀ l : List Char, lookupActions m l = none ↔ ∃ c ∈ l, dlookup c m = none := by
  intro l
  induction l with
  | nil => simp [lookupActions]
  | cons c cs ih =>
    rcases hg : dlookup c m with _ | a
    · constructor
      · intro _
        exact ⟨c, List.mem_cons_self c cs, hg⟩
      · intro _
        simp [lookupActions, hg]
    · constructor
      · intro h
        simp only [lookupActions, hg, Option.map_eq_none'] at h
        obtain ⟨d, hd, hdn⟩ := ih.mp h
        exact ⟨d, List.mem_cons_of_mem c hd, hdn⟩
      · rintro ⟨d, hd, hdn⟩
        rcases List.mem_cons.mp hd with rfl | hmem
        · rw [hg] at hdn
          cases hdn
        · have := ih.mpr ⟨d, hmem, hdn⟩
          simp [lookupActions, hg, this]

/-- A successful `lookupActions` is the pointwise in-order resolution. -/
theorem lookupActions_some_pointwise (m : List (Char × Action)) :
    ∀ (l : List Char) (acts : List Action), lookupActions m l = some acts →
      List.Forall₂ (fun c a => dlookup c m = some a) l acts := by
  intro l
  induction l with
  | nil =>
    intro acts h
    simp only [lookupActions, Option.some.injEq] at h
    subst h
    exact List.Forall₂.nil
  | cons c cs ih =>
    intro acts h
    rcases hg : dlookup c m with _ | a
    · simp [lookupActions, hg] at h
    · rcases hr : lookupActions m cs with _ | acts0
      · simp [lookupActions, hg, hr] at h
      · simp only [lookupActions, hg, hr, Option.map_some', Option.some.injEq] at h
        subst h
        exact List.Forall₂.cons hg (ih acts0 hr)

/-- C9: `render_actions` hits its `unwrap` panic (modelled as `none`) exactly
when some character of the rendered expansion has no entry in the action map;
under the precondition that every character has an entry, it returns the
in-order list of actions of the rendered characters. -/
theorem render_actions_total_iff (p : PlantComponent) :
    (render_actions p = none ↔ ∃ c ∈ p.rendered, dlookup c p.action_map = none) ∧
    ∀ acts, render_actions p = some acts →
      List.Forall₂ (fun c a => dlookup c p.action_map = some a) p.rendered acts :=
  ⟨lookupActions_none_iff p.action_map p.rendered,
   fun acts => lookupActions_some_pointwise p.action_map p.rendered acts⟩

/-- Witness for C9: a plant whose expansion contains the unregistered
character `Q` (e.g. after `RemoveToken`) panics, concretely. -/
theorem render_actions_total_iff_witness :
    render_actions ⟨"XQ".data, [('X', Action.Nothing)]⟩ = none :=
  (render_actions_total_iff ⟨"XQ".data, [('X', Action.Nothing)]⟩).1.mpr
    ⟨'Q', by decide, by decide⟩

end Planty
